import Mathlib

set_option maxHeartbeats 1000000

namespace Pdf2Text

/-! Shallow embedding of the pdf2text repository.

Text is modelled as Lean `String` / `List Char` (Python `str` is a sequence
of Unicode code points; Lean `Char` is a Unicode scalar value, which covers
every string this pipeline can produce).  Positions from pdfplumber are
modelled as `Int`.  Library calls (pdfplumber page access, `unicodedata`,
the network) are modelled as explicit inputs or parameters, while every
piece of control flow of the repository's own code is translated directly. -/

/-- Characters matched by Python's whitespace class for `str` patterns
(`re` module `\s`, and the set stripped by `str.strip()`): ASCII whitespace
together with the Unicode space characters. -/
def isPySpace (c : Char) : Bool :=
  let n := c.toNat
  n = 32 || n = 9 || n = 10 || n = 13 || n = 11 || n = 12 ||
  (28 ≤ n && n ≤ 31) || n = 0x85 || n = 0xA0 || n = 0x1680 ||
  (0x2000 ≤ n && n ≤ 0x200A) || n = 0x2028 || n = 0x2029 ||
  n = 0x202F || n = 0x205F || n = 0x3000

/-- Python `str.strip()` on a list of characters: drop whitespace from both
ends. -/
def stripChars (cs : List Char) : List Char :=
  ((cs.dropWhile isPySpace).reverse.dropWhile isPySpace).reverse

/-- Python `str.strip()` on a `String`. -/
def pyStrip (s : String) : String := ⟨stripChars s.data⟩

/-! ## pdf_parser.py -/

/-- A positioned word token as returned by pdfplumber's `extract_words`
(the fields `PDFParser.extract_text_from_page` reads: `text` and `top`). -/
structure Word where
  text : String
  top : Int
deriving DecidableEq

/-- The `line_threshold = 10` pixels constant of
`PDFParser.extract_text_from_page`. -/
def line_threshold : Int := 10

/-- The loop condition `last_y is None or abs(current_y - last_y) < line_threshold`. -/
def sameLine (t : Int) (lastY : Option Int) (y : Int) : Bool :=
  match lastY with
  | none => true
  | some ly => |y - ly| < t

/-- The paragraph-grouping loop of `PDFParser.extract_text_from_page`:
state is the current paragraph buffer (`current_para`) and `last_y`;
a token on the same line is appended to the buffer, otherwise the buffer is
flushed (joined with spaces) and a new buffer starts with this token; a
non-empty buffer is flushed at the end. -/
def groupWordsAux (t : Int) : List Word → List String → Option Int → List String
  | [], currentPara, _ =>
      if currentPara = [] then [] else [String.intercalate " " currentPara]
  | w :: ws, currentPara, lastY =>
      if sameLine t lastY w.top then
        groupWordsAux t ws (currentPara ++ [w.text]) (some w.top)
      else
        (if currentPara = [] then [] else [String.intercalate " " currentPara]) ++
          groupWordsAux t ws [w.text] (some w.top)

/-- Paragraphs computed from the word tokens of one page
(the whole grouping pass with threshold 10 and empty initial state). -/
def group_paragraphs (ws : List Word) : List String :=
  groupWordsAux line_threshold ws [] none

/-- The per-page input that pdfplumber hands to the parser: the raw text,
the positioned word tokens, dimensions, the raw extracted tables (cells may
be `None`), and two flags telling whether the underlying extraction calls
raise for this page (text/words extraction, table extraction). -/
structure PageInput where
  pageNumber : Nat
  text : String
  words : List Word
  width : Int
  height : Int
  tablesRaw : List (List (List (Option String)))
  textRaises : Bool
  tablesRaise : Bool
deriving DecidableEq

/-- The dictionary returned by `PDFParser.extract_text_from_page`. -/
structure PageTextData where
  page_number : Nat
  text : String
  paragraphs : List String
  word_count : Nat
  width : Int
  height : Int
deriving DecidableEq

/-- `PDFParser.extract_text_from_page`: on success, the raw text, grouped
paragraphs and word count; if the page's extraction raises, the `except`
branch returns the empty page record. -/
def extract_text_from_page (p : PageInput) : PageTextData :=
  if p.textRaises then
    ⟨p.pageNumber, "", [], 0, 0, 0⟩
  else
    ⟨p.pageNumber, p.text, group_paragraphs p.words, p.words.length, p.width, p.height⟩

/-- A table record as built by `PDFParser.extract_tables_from_page`. -/
structure Table where
  table_number : Nat
  data : List (List String)
  rows : Nat
  columns : Nat
deriving DecidableEq

/-- Cell cleaning `cell.strip() if cell else ''` (falsy cells are `None`
and the empty string). -/
def cleanCell : Option String → String
  | none => ""
  | some s => if s = "" then "" else pyStrip s

/-- `PDFParser.extract_tables_from_page`: enumerate the raw tables, skip
empty ones (`if not table: continue`), strip every cell, and record the
1-based enumeration index as `table_number`; the `except` branch returns
the empty list. -/
def extract_tables_from_page (p : PageInput) : List Table :=
  if p.tablesRaise then []
  else
    p.tablesRaw.enum.filterMap fun it =>
      if it.2 = [] then none
      else
        let cleaned := it.2.map (fun row => row.map cleanCell)
        some ⟨it.1 + 1, cleaned, cleaned.length,
              match cleaned with | [] => 0 | r :: _ => r.length⟩

/-- The `statistics` sub-dictionary of `PDFParser.parse`. -/
structure Statistics where
  total_pages : Nat
  total_words : Nat
  total_tables : Nat
  total_paragraphs : Nat
deriving DecidableEq

/-- One entry of `result['pages']`: the page text data merged with the
page's tables. -/
structure PageData where
  textData : PageTextData
  tables : List Table
deriving DecidableEq

/-- The result dictionary of `PDFParser.parse` (metadata omitted: no claim
concerns it). -/
structure ParseResult where
  pages : List PageData
  all_text : String
  all_tables : List Table
  statistics : Statistics
deriving DecidableEq

/-- One iteration of the page loop of `PDFParser.parse`: extract text and
tables, append the page record, extend `all_text` and `all_tables`, and
update the running statistics. -/
def parseStep (res : ParseResult) (p : PageInput) : ParseResult :=
  let ptd := extract_text_from_page p
  let ptb := extract_tables_from_page p
  ⟨res.pages ++ [⟨ptd, ptb⟩],
   res.all_text ++ ptd.text ++ "\n\n",
   res.all_tables ++ ptb,
   ⟨res.statistics.total_pages,
    res.statistics.total_words + ptd.word_count,
    res.statistics.total_tables + ptb.length,
    res.statistics.total_paragraphs + ptd.paragraphs.length⟩⟩

/-- `PDFParser.parse` on the success path: `total_pages` is set to the page
count up front, then every page is folded into the result in order. -/
def parse (inputs : List PageInput) : ParseResult :=
  inputs.foldl parseStep ⟨[], "", [], ⟨inputs.length, 0, 0, 0⟩⟩

/-- The page record contributed by one page input. -/
def pageOf (p : PageInput) : PageData :=
  ⟨extract_text_from_page p, extract_tables_from_page p⟩

/-- Reference characterization of paragraph grouping (the spec's wording):
split the token stream into maximal runs, two consecutive tokens staying in
one run exactly when their `top` positions differ by less than the
threshold. -/
def splitRuns (t : Int) : List Word → List (List Word)
  | [] => []
  | [w] => [[w]]
  | w :: v :: ws =>
      match splitRuns t (v :: ws) with
      | [] => [[w]]
      | r :: rs => if |v.top - w.top| < t then (w :: r) :: rs else [w] :: r :: rs

/-- The word texts of each run. -/
def runsTexts (t : Int) (ws : List Word) : List (List String) :=
  (splitRuns t ws).map (List.map Word.text)

/-- Prepend a buffer onto the first of a list of paragraphs (flushing it
alone when there is none). -/
def mergeFirst (acc : List String) : List (List String) → List (List String)
  | [] => [acc]
  | r :: rs => (acc ++ r) :: rs

/-- Whether the first token of the list (if any) lies within the threshold
of the position `y`. -/
def firstClose (t : Int) (y : Int) : List Word → Bool
  | [] => true
  | v :: _ => |v.top - y| < t

/-- Scenario page 1 of claim C3: three tokens all at `top = 100`. -/
def c3Page1 : PageInput :=
  ⟨1, "t1", [⟨"alpha", 100⟩, ⟨"beta", 100⟩, ⟨"gamma", 100⟩], 600, 800, [], false, false⟩

/-- Scenario page 2 of claim C3: every extraction call raises on this page. -/
def c3Page2 : PageInput :=
  ⟨2, "t2", [⟨"x", 0⟩], 600, 800, [[[some "c"]]], true, true⟩

/-- A page whose first detected table is empty and whose second is not:
the empty one is skipped but still consumes index 1, so the only recorded
table carries `table_number = 2`. -/
def c10Page : PageInput :=
  ⟨1, "", [], 0, 0, [[], [[some "x"]]], false, false⟩

/-! ## text_preprocessor.py

The two Unicode-table-dependent library operations the preprocessor calls —
`unicodedata.normalize('NFC', ·)` and the `\w` character class of the `re`
module — are parameters of the model (`Uni`); everything else (the regular
expressions over explicit character sets and all of the pipeline's control
flow) is translated concretely.  The `text.encode('utf-8', errors='ignore')
.decode('utf-8')` round-trip of `normalize_encoding` is the identity on
sequences of Unicode scalar values, which is what Lean's `Char` ranges
over, so it adds nothing on top of `nfc`. -/

/-- The Unicode-dependent library operations used by `TextPreprocessor`:
`nfc` models `unicodedata.normalize('NFC', ·)` and `isWord` models the
`\w` class of Python's `re` module. -/
structure Uni where
  nfc : List Char → List Char
  isWord : Char → Bool

/-- The CJK range `一-鿿` of `special_char_pattern`. -/
def isCJK (c : Char) : Bool := 0x4E00 ≤ c.toNat && c.toNat ≤ 0x9FFF

/-- The punctuation characters listed in `special_char_pattern`:
`.,!?;:()[]{}-'"/@#$%&*+=<>|\~` and the backquote. -/
def pdfPunct : List Char :=
  ['.', ',', '!', '?', ';', ':', '(', ')', '[', ']', Char.ofNat 0x7B,
   Char.ofNat 0x7D, '-', Char.ofNat 0x27, Char.ofNat 0x22, '/', '@', '#',
   '$', '%', '&', '*', '+', '=', '<', '>', '|', Char.ofNat 0x5C, '~',
   Char.ofNat 0x60]

/-- A character kept by `special_char_pattern` (the pattern removes every
character outside `[\w\s一-鿿]` and the punctuation list). -/
def specialKeep (U : Uni) (c : Char) : Bool :=
  U.isWord c || isPySpace c || isCJK c || pdfPunct.contains c

/-- `TextPreprocessor.remove_pdf_artifacts`: delete form feed (`\f`),
carriage return (`\r`) and the null character. -/
def remove_pdf_artifacts (cs : List Char) : List Char :=
  if cs = [] then []
  else cs.filter (fun c => !(c.toNat = 12 || c.toNat = 13 || c.toNat = 0))

/-- `TextPreprocessor.normalize_encoding`: NFC normalization followed by
the utf-8 encode/decode round trip (the identity on scalar values). -/
def normalize_encoding (U : Uni) (cs : List Char) : List Char :=
  if cs = [] then [] else U.nfc cs

/-- Worker for `fix_broken_words`, implementing
`re.sub(r'-\s*\n\s*', '', text)`: a hyphen followed by a whitespace run
containing a newline is deleted together with that whole run (the greedy
`\s*\n\s*` consumes the maximal run when it contains a `\n`); otherwise the
scan moves one character forward.  The fuel argument only bounds the
recursion and is initialised to the list length, which one consumed
character per step can never exhaust. -/
def fixBrokenAux : Nat → List Char → List Char
  | 0, cs => cs
  | _ + 1, [] => []
  | fuel + 1, c :: cs =>
      if c = '-' then
        if (cs.takeWhile isPySpace).contains '\n' then
          fixBrokenAux fuel (cs.dropWhile isPySpace)
        else c :: fixBrokenAux fuel cs
      else c :: fixBrokenAux fuel cs

/-- `TextPreprocessor.fix_broken_words`. -/
def fix_broken_words (cs : List Char) : List Char :=
  if cs = [] then [] else fixBrokenAux cs.length cs

/-- `TextPreprocessor.remove_special_characters` with
`preserve_punctuation=True` (the only way `clean_text` calls it). -/
def remove_special_characters (U : Uni) (cs : List Char) : List Char :=
  if cs = [] then [] else cs.filter (specialKeep U)

/-- `re.sub(r'\s+', ' ', text)`: replace every maximal whitespace run by a
single space; the boolean state records whether the previous character was
part of a run already replaced. -/
def collapseSpacesAux : Bool → List Char → List Char
  | _, [] => []
  | prevSpace, c :: cs =>
      if isPySpace c then
        if prevSpace then collapseSpacesAux true cs
        else ' ' :: collapseSpacesAux true cs
      else c :: collapseSpacesAux false cs

/-- The whole-string form of `re.sub(r'\s+', ' ', text)`. -/
def collapseSpaces (cs : List Char) : List Char := collapseSpacesAux false cs

/-- Emit a pending run of `n` newlines under `re.sub(r'\n{3,}', '\n\n', ·)`:
three or more become exactly two. -/
def nlRun (n : Nat) : List Char :=
  if 3 ≤ n then ['\n', '\n'] else List.replicate n '\n'

/-- Worker for `re.sub(r'\n{3,}', '\n\n', text)`, carrying the length of
the current newline run. -/
def collapseNlAux : Nat → List Char → List Char
  | n, [] => nlRun n
  | n, c :: cs =>
      if c = '\n' then collapseNlAux (n + 1) cs
      else nlRun n ++ (c :: collapseNlAux 0 cs)

/-- The whole-string form of `re.sub(r'\n{3,}', '\n\n', text)`. -/
def collapseNl (cs : List Char) : List Char := collapseNlAux 0 cs

/-- Python `text.split('\n')` (an empty text yields one empty line). -/
def splitNl : List Char → List (List Char)
  | [] => [[]]
  | c :: cs =>
      if c = '\n' then [] :: splitNl cs
      else
        match splitNl cs with
        | [] => [[c]]
        | p :: ps => (c :: p) :: ps

/-- `TextPreprocessor.normalize_whitespace`: collapse whitespace runs,
collapse 3+ newlines to two, strip every line, rejoin, and strip the
result. -/
def normalize_whitespace (cs : List Char) : List Char :=
  if cs = [] then []
  else
    stripChars (List.intercalate ['\n']
      ((splitNl (collapseNl (collapseSpaces cs))).map stripChars))

/-- Python `str.isdigit` restricted to the ASCII digits (the only digits
exercised by this development; `isdigit` additionally accepts other Unicode
digit characters). -/
def isDigitsOnly (cs : List Char) : Bool :=
  !cs.isEmpty && cs.all Char.isDigit

/-- `TextPreprocessor.remove_headers_footers` with the default
`remove_page_numbers=True`: drop purely numeric lines, and drop short
lines (stripped length less than 5) when no line has been kept yet or the
line equals the last line of the original text. -/
def remove_headers_footers (cs : List Char) : List Char :=
  if cs = [] then []
  else
    let lines := splitNl cs
    let lastLine := lines.getLastD []
    let cleaned := lines.foldl (fun acc line =>
      if isDigitsOnly (stripChars line) then acc
      else if (stripChars line).length < 5 && (acc.isEmpty || line = lastLine) then acc
      else acc ++ [line]) []
    List.intercalate ['\n'] cleaned

/-- `TextPreprocessor.clean_text`: the six independently togglable steps in
their fixed order (artifacts, encoding, broken words, special characters,
whitespace, headers/footers).  The boolean parameters appear in the order
of the Python signature. -/
def clean_text (U : Uni) (text : List Char)
    (remove_special normalize_space normalize_encode remove_artifacts
     fix_words remove_headers : Bool) : List Char :=
  if text = [] then []
  else
    let t1 := if remove_artifacts then remove_pdf_artifacts text else text
    let t2 := if normalize_encode then normalize_encoding U t1 else t1
    let t3 := if fix_words then fix_broken_words t2 else t2
    let t4 := if remove_special then remove_special_characters U t3 else t3
    let t5 := if normalize_space then normalize_whitespace t4 else t4
    if remove_headers then remove_headers_footers t5 else t5

/-- `clean_text` with its default option set (all steps but
headers/footers enabled). -/
def clean_text_default (U : Uni) (text : List Char) : List Char :=
  clean_text U text true true true true true false

/-- `TextPreprocessor.clean_table_data`: clean every cell with
`remove_special=False` and `fix_words=False` (and no headers/footers),
keeping the row structure. -/
def clean_table_data (U : Uni) (table : List (List (List Char))) :
    List (List (List Char)) :=
  table.map (fun row => row.map (fun cell =>
    clean_text U cell false true true true false false))

/-- Modelled from the spec: the per-cell cleaning claimed for
`cleanTable` — "applies steps 1–3 and 5", i.e. with broken-word repair
(`fix_words`) enabled, unlike the source's call. -/
def clean_table_data_claimed (U : Uni) (table : List (List (List Char))) :
    List (List (List Char)) :=
  table.map (fun row => row.map (fun cell =>
    clean_text U cell false true true true true false))

/-- A Unicode model in which NFC acts as the identity (faithful for text,
such as ASCII, containing no composable or decomposable sequences) and the
word class is the ASCII fragment of `\w`. -/
def uniASCII : Uni :=
  ⟨fun cs => cs, fun c => c.isAlphanum || c = '_'⟩

/-- Leading consonant jamo `U+1100`–`U+1112`. -/
def isJamoL (c : Char) : Bool := 0x1100 ≤ c.toNat && c.toNat ≤ 0x1112

/-- Vowel jamo `U+1161`–`U+1175`. -/
def isJamoV (c : Char) : Bool := 0x1161 ≤ c.toNat && c.toNat ≤ 0x1175

/-- Trailing consonant jamo `U+11A8`–`U+11C2`. -/
def isJamoT (c : Char) : Bool := 0x11A8 ≤ c.toNat && c.toNat ≤ 0x11C2

/-- Precomposed Hangul syllables `U+AC00`–`U+D7A3`. -/
def isHangulSyl (c : Char) : Bool := 0xAC00 ≤ c.toNat && c.toNat ≤ 0xD7A3

/-- A Hangul syllable with no trailing consonant (an LV syllable). -/
def isHangulLV (c : Char) : Bool :=
  isHangulSyl c && (c.toNat - 0xAC00) % 28 = 0

/-- The Hangul part of canonical composition (UAX #15): a leading
consonant followed by a vowel composes into an LV syllable
(`AC00 + (L-1100)*588 + (V-1161)*28`), and an LV syllable followed by a
trailing consonant composes into an LVT syllable.  Fuel is initialised to
the length, which the recursion cannot exhaust. -/
def hangulComposeAux : Nat → List Char → List Char
  | 0, cs => cs
  | _ + 1, [] => []
  | _ + 1, [c] => [c]
  | fuel + 1, a :: b :: cs =>
      if isJamoL a && isJamoV b then
        hangulComposeAux fuel
          (Char.ofNat (0xAC00 + (a.toNat - 0x1100) * 588 + (b.toNat - 0x1161) * 28) :: cs)
      else if isHangulLV a && isJamoT b then
        hangulComposeAux fuel (Char.ofNat (a.toNat + (b.toNat - 0x11A7)) :: cs)
      else a :: hangulComposeAux fuel (b :: cs)

/-- Hangul canonical composition on a whole string. -/
def hangulCompose (cs : List Char) : List Char :=
  hangulComposeAux cs.length cs

/-- A Unicode model faithful on strings whose only composable or
decomposable sequences are Hangul jamo: `nfc` performs exactly the Hangul
canonical composition (`unicodedata.normalize('NFC', ·)` acts this way on
such strings, and in particular on `c4Input` and everything `clean_text`
derives from it), and the word class is the ASCII fragment of `\w` plus
the jamo and Hangul-syllable ranges (all of general category Lo, hence
matched by `\w`). -/
def uniHangul : Uni :=
  ⟨hangulCompose, fun c =>
    c.isAlphanum || c = '_' || isJamoL c || isJamoV c || isJamoT c || isHangulSyl c⟩

/-- The C4 counterexample input: a leading consonant jamo, a hyphen, a
newline and a vowel jamo.  `fix_broken_words` deletes the hyphen-newline
pair, so the first cleaning pass outputs the two adjacent jamo unchanged,
and the second pass's NFC step composes them into one Hangul syllable. -/
def c4Input : List Char := [Char.ofNat 0x1100, '-', '\n', Char.ofNat 0x1161]

/-- The C5 counterexample cell `"ab-\ncd"`: with broken-word repair it
would clean to `"abcd"`, without it the newline merely collapses to a
space. -/
def c5Cell : List Char := ['a', 'b', '-', '\n', 'c', 'd']

/-! ## deepseek_client.py

The network is modelled by an oracle: for the retry machinery, a function
from the attempt number to that attempt's outcome; for the chunk fan-out,
a function from a chunk's text and length argument to the worker's result
(`Except`, since `future.result()` re-raises a worker's exception).  The
completion order of `as_completed` is a further semantic parameter (a
permutation of the chunk indices).  Everything else — classification,
retry control flow, delays, chunk splitting, reassembly — is translated
from the source. -/

/-- The outcome of one attempted POST in `DeepSeekClient._make_request`:
the call succeeds, times out, fails with an HTTP status code, or fails
with any other exception. -/
inductive ReqOutcome
  | success (s : List Char)
  | timeout
  | httpStatus (code : Nat)
  | otherFail
deriving DecidableEq

/-- The exception raised out of `_make_request`: a requests timeout, a
`ValueError` with its message, an HTTP error with its status, or any other
exception. -/
inductive ApiError
  | timeoutErr
  | valueErr (msg : List Char)
  | httpErr (code : Nat)
  | otherErr
deriving DecidableEq

instance {ε α : Type} [DecidableEq ε] [DecidableEq α] : DecidableEq (Except ε α) :=
  fun x y =>
    match x, y with
    | .ok a, .ok b => decidable_of_iff (a = b) (by simp)
    | .ok _, .error _ => isFalse (fun hc => Except.noConfusion hc)
    | .error _, .ok _ => isFalse (fun hc => Except.noConfusion hc)
    | .error e, .error f => decidable_of_iff (e = f) (by simp)

/-- Message of the ValueError raised on HTTP 429. -/
def rateLimitMsg : List Char := "API rate limit exceeded. Please try again later.".data

/-- Message of the ValueError raised on HTTP 401. -/
def invalidKeyMsg : List Char := "Invalid API key".data

/-- `DeepSeekClient._make_request`: a timeout is re-raised; HTTP 429 and
401 are converted to `ValueError`s with fixed messages; other HTTP errors
and other exceptions are re-raised as they are. -/
def make_request (o : ReqOutcome) : Except ApiError (List Char) :=
  match o with
  | .success s => .ok s
  | .timeout => .error .timeoutErr
  | .httpStatus code =>
      if code = 429 then .error (.valueErr rateLimitMsg)
      else if code = 401 then .error (.valueErr invalidKeyMsg)
      else .error (.httpErr code)
  | .otherFail => .error .otherErr

/-- Python `str.lower()` on the characters (ASCII fragment suffices for
the two fixed messages this model compares). -/
def lowerChars (cs : List Char) : List Char := cs.map Char.toLower

/-- Whether the second list starts with the first. -/
def startsWith : List Char → List Char → Bool
  | [], _ => true
  | _ :: _, [] => false
  | a :: as, b :: bs => a = b && startsWith as bs

/-- Python's substring test `needle in hay` on character lists. -/
def containsSub (needle : List Char) : List Char → Bool
  | [] => startsWith needle []
  | c :: t => startsWith needle (c :: t) || containsSub needle t

/-- The terminal-classification test of `_retry_request`:
`"rate limit" in str(e).lower() or "invalid" in str(e).lower()`. -/
def isTerminalMsg (msg : List Char) : Bool :=
  containsSub "rate limit".data (lowerChars msg) ||
  containsSub "invalid".data (lowerChars msg)

/-- Observable trace of `_retry_request`: how many attempts were made, the
sleeps performed between attempts (in seconds), and the outcome — `some
(.ok s)` for a returned response, `some (.error e)` for a raised
exception, `none` for the `return None` fall-through (reachable only with
`max_retries = 0`). -/
structure RetryTrace where
  attempts : Nat
  delays : List Nat
  result : Option (Except ApiError (List Char))
deriving DecidableEq

/-- The loop of `DeepSeekClient._retry_request`.  `attempt` is the 0-based
loop counter; the fuel is initialised to `maxRetries`, so the fuel-0 case
is exactly the loop running out (`return None`).  A timeout before the
last attempt sleeps `RETRY_DELAY * (attempt + 1)`; a terminal `ValueError`
(rate limit / invalid key) is re-raised at once; a non-terminal
`ValueError` sleeps the same linear delay; any other exception sleeps the
doubled delay `RETRY_DELAY * (attempt + 1) * 2`; on the last attempt the
exception is re-raised. -/
def retryAux (outcomes : Nat → ReqOutcome) (maxRetries retryDelay : Nat) :
    Nat → Nat → List Nat → RetryTrace
  | 0, attempt, delays => ⟨attempt, delays, none⟩
  | fuel + 1, attempt, delays =>
      match make_request (outcomes attempt) with
      | .ok s => ⟨attempt + 1, delays, some (.ok s)⟩
      | .error .timeoutErr =>
          if attempt < maxRetries - 1 then
            retryAux outcomes maxRetries retryDelay fuel (attempt + 1)
              (delays ++ [retryDelay * (attempt + 1)])
          else ⟨attempt + 1, delays, some (.error .timeoutErr)⟩
      | .error (.valueErr msg) =>
          if isTerminalMsg msg then
            ⟨attempt + 1, delays, some (.error (.valueErr msg))⟩
          else if attempt < maxRetries - 1 then
            retryAux outcomes maxRetries retryDelay fuel (attempt + 1)
              (delays ++ [retryDelay * (attempt + 1)])
          else ⟨attempt + 1, delays, some (.error (.valueErr msg))⟩
      | .error e =>
          if attempt < maxRetries - 1 then
            retryAux outcomes maxRetries retryDelay fuel (attempt + 1)
              (delays ++ [retryDelay * (attempt + 1) * 2])
          else ⟨attempt + 1, delays, some (.error e)⟩

/-- `DeepSeekClient._retry_request` with explicit `max_retries` and
`RETRY_DELAY` (the config defaults are 3 and 2). -/
def retry_request (outcomes : Nat → ReqOutcome) (maxRetries retryDelay : Nat) :
    RetryTrace :=
  retryAux outcomes maxRetries retryDelay maxRetries 0 []

/-- `DeepSeekClient.summarize_text`: empty or whitespace-only input is
returned unchanged without any request; otherwise `_retry_request` runs
and a truthy response is returned, while a falsy response (`None` or the
empty string) and — via the surrounding `except Exception` — every raised
error all result in the original text.  The `length` argument only selects
the system prompt and does not influence this control flow. -/
def summarize_text (outcomes : Nat → ReqOutcome) (maxRetries retryDelay : Nat)
    (text : List Char) (_length : String) : List Char :=
  if text = [] ∨ stripChars text = [] then text
  else
    match (retry_request outcomes maxRetries retryDelay).result with
    | some (.ok s) => if s = [] then text else s
    | _ => text

/-- The paragraph separator `'\n\n'`. -/
def nlnl : List Char := ['\n', '\n']

/-- Python `text.split('\n\n')`: split on leftmost non-overlapping
occurrences of the two-character separator. -/
def splitParas : List Char → List (List Char)
  | [] => [[]]
  | [c] => [[c]]
  | a :: b :: cs =>
      if a = '\n' ∧ b = '\n' then [] :: splitParas cs
      else
        match splitParas (b :: cs) with
        | [] => [[a]]
        | p :: ps => (a :: p) :: ps

/-- Python `'\n\n'.join(...)`. -/
def joinParas (l : List (List Char)) : List Char := List.intercalate nlnl l

/-- The chunk-building loop of `summarize_text_chunks`: accumulate
paragraphs until adding the next one would exceed `chunk_size` (and the
current chunk is non-empty), then flush. -/
def chunkGo (chunkSize : Nat) :
    List (List Char) → List (List Char) → Nat → List (List Char)
  | [], currentChunk, _ =>
      if currentChunk = [] then [] else [joinParas currentChunk]
  | para :: rest, currentChunk, currentSize =>
      if currentSize + para.length > chunkSize ∧ currentChunk ≠ [] then
        joinParas currentChunk :: chunkGo chunkSize rest [para] para.length
      else
        chunkGo chunkSize rest (currentChunk ++ [para]) (currentSize + para.length)

/-- The paragraph-aligned chunks `summarize_text_chunks` builds from a
text. -/
def splitChunks (chunkSize : Nat) (text : List Char) : List (List Char) :=
  chunkGo chunkSize (splitParas text) [] 0

/-- The length argument passed to every submitted chunk call:
`'short' if len(chunks) > 1 else length`. -/
def chunkLengthArg (numChunks : Nat) (length : String) : String :=
  if numChunks > 1 then "short" else length

/-- The list of length arguments used for the chunk-summarize calls (one
per chunk, each computed by the same conditional of the submission
comprehension). -/
def chunkCallLengths (chunkSize : Nat) (text : List Char) (length : String) :
    List String :=
  (splitChunks chunkSize text).map
    (fun _ => chunkLengthArg (splitChunks chunkSize text).length length)

/-- The value stored in `chunk_summaries[idx]` for chunk `idx`: the
worker's result, or — when `future.result()` raised — the fallback
`chunks[idx][:500] + "..."`. -/
def chunkEntry (S : List Char → String → Except Unit (List Char))
    (lengthArg : String) (chunks : List (List Char)) (idx : Nat) : List Char :=
  match S (chunks.getD idx []) lengthArg with
  | .ok s => s
  | .error _ => (chunks.getD idx []).take 500 ++ ['.', '.', '.']

/-- The `as_completed` collection loop: starting from
`chunk_summaries = [''] * len(chunks)`, each completed future writes its
own index; `order` is the completion order. -/
def reassembleChunks (S : List Char → String → Except Unit (List Char))
    (lengthArg : String) (chunks : List (List Char)) (order : List Nat) :
    List (List Char) :=
  order.foldl (fun arr idx => arr.set idx (chunkEntry S lengthArg chunks idx))
    (List.replicate chunks.length [])

/-- `DeepSeekClient.summarize_text_chunks`: short input goes directly to
`summarize_text` (modelled by the worker oracle `S`, whose error would
propagate here); otherwise the text is split into paragraph-aligned
chunks, all chunk calls are dispatched (each with
`chunkLengthArg`), the results are collected in completion order into the
index-keyed array, joined with `'\n\n'`, and re-summarized at the caller's
length if more than one chunk existed and the concatenation still exceeds
the threshold. -/
def summarize_text_chunks (S : List Char → String → Except Unit (List Char))
    (order : List Nat) (chunkSize : Nat) (text : List Char) (length : String) :
    Except Unit (List Char) :=
  if text.length ≤ chunkSize then S text length
  else
    let chunks := splitChunks chunkSize text
    let lengthArg := chunkLengthArg chunks.length length
    let summaries := reassembleChunks S lengthArg chunks order
    let combined := joinParas summaries
    if chunks.length > 1 ∧ combined.length > chunkSize then S combined length
    else .ok combined

/-- The C6 counterexample text `"aaaa\n\nbbbb"`: with threshold 5 it
splits into the two chunks `"aaaa"` and `"bbbb"`. -/
def c6Text : List Char := "aaaa\n\nbbbb".data

end Pdf2Text

namespace Pdf2Text

theorem parse_foldl_pages (inputs : List PageInput) (acc : ParseResult) :
    (inputs.foldl parseStep acc).pages = acc.pages ++ inputs.map pageOf := by
  induction inputs generalizing acc with
  | nil => simp
  | cons p ps ih =>
      simp only [List.foldl_cons, List.map_cons, ih]
      simp [parseStep, pageOf, List.append_assoc]

theorem parse_foldl_all_tables (inputs : List PageInput) (acc : ParseResult) :
    (inputs.foldl parseStep acc).all_tables =
      acc.all_tables ++ (inputs.map extract_tables_from_page).flatten := by
  induction inputs generalizing acc with
  | nil => simp
  | cons p ps ih =>
      simp only [List.foldl_cons, List.map_cons, List.flatten_cons, ih]
      simp [parseStep, List.append_assoc]

theorem parse_foldl_total_pages (inputs : List PageInput) (acc : ParseResult) :
    (inputs.foldl parseStep acc).statistics.total_pages =
      acc.statistics.total_pages := by
  induction inputs generalizing acc with
  | nil => rfl
  | cons p ps ih => simp only [List.foldl_cons, ih]; rfl

theorem parse_foldl_total_words (inputs : List PageInput) (acc : ParseResult) :
    (inputs.foldl parseStep acc).statistics.total_words =
      acc.statistics.total_words +
        (inputs.map (fun p => (extract_text_from_page p).word_count)).sum := by
  induction inputs generalizing acc with
  | nil => simp
  | cons p ps ih =>
      simp only [List.foldl_cons, List.map_cons, List.sum_cons, ih]
      simp [parseStep, Nat.add_assoc]

theorem parse_foldl_total_tables (inputs : List PageInput) (acc : ParseResult) :
    (inputs.foldl parseStep acc).statistics.total_tables =
      acc.statistics.total_tables +
        (inputs.map (fun p => (extract_tables_from_page p).length)).sum := by
  induction inputs generalizing acc with
  | nil => simp
  | cons p ps ih =>
      simp only [List.foldl_cons, List.map_cons, List.sum_cons, ih]
      simp [parseStep, Nat.add_assoc]

theorem parse_foldl_total_paragraphs (inputs : List PageInput) (acc : ParseResult) :
    (inputs.foldl parseStep acc).statistics.total_paragraphs =
      acc.statistics.total_paragraphs +
        (inputs.map (fun p => (extract_text_from_page p).paragraphs.length)).sum := by
  induction inputs generalizing acc with
  | nil => simp
  | cons p ps ih =>
      simp only [List.foldl_cons, List.map_cons, List.sum_cons, ih]
      simp [parseStep, Nat.add_assoc]

theorem parse_pages (inputs : List PageInput) :
    (parse inputs).pages = inputs.map pageOf := by
  simpa using parse_foldl_pages inputs ⟨[], "", [], ⟨inputs.length, 0, 0, 0⟩⟩

theorem parse_all_tables (inputs : List PageInput) :
    (parse inputs).all_tables = (inputs.map extract_tables_from_page).flatten := by
  simpa using parse_foldl_all_tables inputs ⟨[], "", [], ⟨inputs.length, 0, 0, 0⟩⟩

/-- C1: for every successfully parsed document, the statistics are strictly
the sums of the per-page values: `total_words` is the sum of the pages'
`word_count`, `total_tables` the sum of the pages' table-list lengths,
`total_paragraphs` the sum of the pages' paragraph-list lengths, and
`total_pages` is the number of page records in the result. -/
theorem statistics_are_sums (inputs : List PageInput) :
    (parse inputs).statistics.total_words =
      ((parse inputs).pages.map (fun pg => pg.textData.word_count)).sum ∧
    (parse inputs).statistics.total_tables =
      ((parse inputs).pages.map (fun pg => pg.tables.length)).sum ∧
    (parse inputs).statistics.total_paragraphs =
      ((parse inputs).pages.map (fun pg => pg.textData.paragraphs.length)).sum ∧
    (parse inputs).statistics.total_pages = (parse inputs).pages.length := by
  have hw := parse_foldl_total_words inputs ⟨[], "", [], ⟨inputs.length, 0, 0, 0⟩⟩
  have ht := parse_foldl_total_tables inputs ⟨[], "", [], ⟨inputs.length, 0, 0, 0⟩⟩
  have hp := parse_foldl_total_paragraphs inputs ⟨[], "", [], ⟨inputs.length, 0, 0, 0⟩⟩
  have hn := parse_foldl_total_pages inputs ⟨[], "", [], ⟨inputs.length, 0, 0, 0⟩⟩
  refine ⟨?_, ?_, ?_, ?_⟩
  · rw [parse_pages, List.map_map]
    simpa [parse, pageOf, Function.comp] using hw
  · rw [parse_pages, List.map_map]
    simpa [parse, pageOf, Function.comp] using ht
  · rw [parse_pages, List.map_map]
    simpa [parse, pageOf, Function.comp] using hp
  · rw [parse_pages, List.length_map]
    simpa [parse] using hn

theorem splitRuns_cons (t : Int) (ws : List Word) (v : Word) :
    ∃ r rs, splitRuns t (v :: ws) = (v :: r) :: rs := by
  induction ws generalizing v with
  | nil => exact ⟨[], [], rfl⟩
  | cons u ws ih =>
      obtain ⟨r, rs, hr⟩ := ih u
      by_cases h : |u.top - v.top| < t
      · exact ⟨u :: r, rs, by simp [splitRuns, hr, h]⟩
      · exact ⟨[], (u :: r) :: rs, by simp [splitRuns, hr, h]⟩

theorem mergeFirst_runsTexts (t : Int) (w : Word) (ws : List Word) (acc : List String) :
    mergeFirst acc (runsTexts t (w :: ws)) =
      if firstClose t w.top ws then mergeFirst (acc ++ [w.text]) (runsTexts t ws)
      else (acc ++ [w.text]) :: runsTexts t ws := by
  cases ws with
  | nil => simp [firstClose, runsTexts, splitRuns, mergeFirst]
  | cons u ws2 =>
      obtain ⟨r, rs, hr⟩ := splitRuns_cons t ws2 u
      by_cases h2 : |u.top - w.top| < t
      · simp [firstClose, h2, runsTexts, splitRuns, hr, mergeFirst]
      · simp [firstClose, h2, runsTexts, splitRuns, hr, mergeFirst]

theorem single_runsTexts (t : Int) (w : Word) (ws : List Word) :
    (if firstClose t w.top ws then mergeFirst [w.text] (runsTexts t ws)
     else [w.text] :: runsTexts t ws) = runsTexts t (w :: ws) := by
  cases ws with
  | nil => simp [firstClose, runsTexts, splitRuns, mergeFirst]
  | cons u ws2 =>
      obtain ⟨r, rs, hr⟩ := splitRuns_cons t ws2 u
      by_cases h2 : |u.top - w.top| < t
      · simp [firstClose, h2, runsTexts, splitRuns, hr, mergeFirst]
      · simp [firstClose, h2, runsTexts, splitRuns, hr, mergeFirst]

theorem groupWordsAux_eq (t : Int) :
    ∀ (ws : List Word) (acc : List String) (y : Int), acc ≠ [] →
    groupWordsAux t ws acc (some y) =
      (if firstClose t y ws then mergeFirst acc (runsTexts t ws)
       else acc :: runsTexts t ws).map (String.intercalate " ") := by
  intro ws
  induction ws with
  | nil =>
      intro acc y hacc
      simp [groupWordsAux, firstClose, runsTexts, splitRuns, mergeFirst, hacc]
  | cons w ws ih =>
      intro acc y hacc
      by_cases hcl : |w.top - y| < t
      · have hstep : groupWordsAux t (w :: ws) acc (some y) =
            groupWordsAux t ws (acc ++ [w.text]) (some w.top) := by
          simp [groupWordsAux, sameLine, hcl]
        rw [hstep, ih (acc ++ [w.text]) w.top (by simp)]
        have hfc : firstClose t y (w :: ws) = true := by
          simp [firstClose, hcl]
        rw [hfc, if_pos rfl, mergeFirst_runsTexts]
      · have hstep : groupWordsAux t (w :: ws) acc (some y) =
            String.intercalate " " acc :: groupWordsAux t ws [w.text] (some w.top) := by
          simp [groupWordsAux, sameLine, hcl, hacc]
        rw [hstep, ih [w.text] w.top (by simp)]
        have hfc : firstClose t y (w :: ws) = false := by
          simp [firstClose, hcl]
        rw [single_runsTexts t w ws, hfc]
        simp

theorem group_paragraphs_eq_runs (ws : List Word) :
    group_paragraphs ws = (runsTexts line_threshold ws).map (String.intercalate " ") := by
  cases ws with
  | nil => rfl
  | cons w ws =>
      have hstep : group_paragraphs (w :: ws) =
          groupWordsAux line_threshold ws [w.text] (some w.top) := by
        simp [group_paragraphs, groupWordsAux, sameLine]
      rw [hstep, groupWordsAux_eq line_threshold ws [w.text] w.top (by simp),
        ← single_runsTexts line_threshold w ws]

theorem splitRuns_flatten (t : Int) (ws : List Word) :
    (splitRuns t ws).flatten = ws := by
  induction ws with
  | nil => rfl
  | cons w ws ih =>
      cases ws with
      | nil => rfl
      | cons u ws2 =>
          obtain ⟨r, rs, hr⟩ := splitRuns_cons t ws2 u
          rw [hr] at ih
          by_cases h : |u.top - w.top| < t
          · rw [show splitRuns t (w :: u :: ws2) = (w :: u :: r) :: rs by
              simp [splitRuns, hr, h]]
            simpa using ih
          · rw [show splitRuns t (w :: u :: ws2) = [w] :: (u :: r) :: rs by
              simp [splitRuns, hr, h]]
            simpa using ih

theorem splitRuns_runs_close (t : Int) (ws : List Word) :
    ∀ r ∈ splitRuns t ws, r ≠ [] ∧
      List.Chain' (fun a b => |b.top - a.top| < t) r := by
  induction ws with
  | nil => simp [splitRuns]
  | cons w ws ih =>
      cases ws with
      | nil =>
          intro r hr
          simp only [splitRuns, List.mem_singleton] at hr
          subst hr
          exact ⟨by simp, by simp⟩
      | cons u ws2 =>
          obtain ⟨r0, rs, hr0⟩ := splitRuns_cons t ws2 u
          rw [hr0] at ih
          intro r hr
          by_cases h : |u.top - w.top| < t
          · rw [show splitRuns t (w :: u :: ws2) = (w :: u :: r0) :: rs by
              simp [splitRuns, hr0, h]] at hr
            rcases List.mem_cons.mp hr with h1 | h1
            · subst h1
              have hu := ih (u :: r0) (List.mem_cons_self _ _)
              exact ⟨by simp, List.chain'_cons.mpr ⟨h, hu.2⟩⟩
            · exact ih r (List.mem_cons_of_mem _ h1)
          · rw [show splitRuns t (w :: u :: ws2) = [w] :: (u :: r0) :: rs by
              simp [splitRuns, hr0, h]] at hr
            rcases List.mem_cons.mp hr with h1 | h1
            · subst h1
              exact ⟨by simp, by simp⟩
            · exact ih r h1

theorem splitRuns_boundaries (t : Int) (ws : List Word) :
    List.Chain' (fun r s => ∀ a b, r.getLast? = some a → s.head? = some b →
      t ≤ |b.top - a.top|) (splitRuns t ws) := by
  induction ws with
  | nil => simp [splitRuns]
  | cons w ws ih =>
      cases ws with
      | nil => simp [splitRuns]
      | cons u ws2 =>
          obtain ⟨r0, rs, hr0⟩ := splitRuns_cons t ws2 u
          rw [hr0] at ih
          by_cases h : |u.top - w.top| < t
          · rw [show splitRuns t (w :: u :: ws2) = (w :: u :: r0) :: rs by
              simp [splitRuns, hr0, h]]
            rcases List.chain'_cons'.mp ih with ⟨hhead, htail⟩
            refine List.chain'_cons'.mpr ⟨?_, htail⟩
            intro s hs a b hlast hhd
            refine hhead s hs a b ?_ hhd
            simpa [List.getLast?_cons_cons] using hlast
          · rw [show splitRuns t (w :: u :: ws2) = [w] :: (u :: r0) :: rs by
              simp [splitRuns, hr0, h]]
            refine List.chain'_cons'.mpr ⟨?_, ih⟩
            intro s hs a b hlast hhd
            have hs' : u :: r0 = s := by simpa using hs
            subst hs'
            have ha : w = a := by simpa using hlast
            have hb : u = b := by simpa using hhd
            subst ha
            subst hb
            exact le_of_not_lt h

/-- C2: paragraph grouping is the single pass of the source loop and equals
the maximal-run characterization: the grouped paragraphs are exactly the
space-joined texts of the runs obtained by starting a new run precisely at a
gap of at least 10 position units; the runs concatenate back to the token
stream in order (order-preserving, nothing dropped); within each run all
consecutive tokens differ by less than 10, and across a run boundary the
gap is at least 10. -/
theorem paragraph_grouping_characterization (ws : List Word) :
    group_paragraphs ws =
      (splitRuns line_threshold ws).map
        (fun r => String.intercalate " " (r.map Word.text)) ∧
    (splitRuns line_threshold ws).flatten = ws ∧
    (∀ r ∈ splitRuns line_threshold ws, r ≠ [] ∧
      List.Chain' (fun a b => |b.top - a.top| < line_threshold) r) ∧
    List.Chain' (fun r s => ∀ a b, r.getLast? = some a → s.head? = some b →
      line_threshold ≤ |b.top - a.top|) (splitRuns line_threshold ws) := by
  refine ⟨?_, splitRuns_flatten _ _, splitRuns_runs_close _ _, splitRuns_boundaries _ _⟩
  rw [group_paragraphs_eq_runs, runsTexts, List.map_map]
  rfl

/-- Concrete instance of C2's run invariants: in the token stream
`[("a",100), ("b",105), ("c",120)]` the first two tokens form one run. -/
theorem paragraph_grouping_characterization_witness :
    ([⟨"a", 100⟩, ⟨"b", 105⟩] : List Word) ≠ [] ∧
    List.Chain' (fun a b => |b.top - a.top| < line_threshold)
      ([⟨"a", 100⟩, ⟨"b", 105⟩] : List Word) :=
  (paragraph_grouping_characterization
      [⟨"a", 100⟩, ⟨"b", 105⟩, ⟨"c", 120⟩]).2.2.1
    [⟨"a", 100⟩, ⟨"b", 105⟩] (by decide)

/-- C3: a page whose extraction raises degrades to the empty page record
but stays in the page sequence; parse still succeeds and `total_pages`
counts it.  Conjoined with the concrete 2-page scenario: page 1 with three
tokens at `top = 100` yields one paragraph joining them, page 2 raises and
is present but empty, and `total_pages = 2`. -/
theorem failed_page_degrades_locally :
    (∀ inputs : List PageInput,
      (parse inputs).pages.length = inputs.length ∧
      (parse inputs).statistics.total_pages = inputs.length) ∧
    (∀ (inputs : List PageInput) (i : Nat) (p : PageInput),
      inputs[i]? = some p → p.textRaises = true → p.tablesRaise = true →
      (parse inputs).pages[i]? = some ⟨⟨p.pageNumber, "", [], 0, 0, 0⟩, []⟩) ∧
    parse [c3Page1, c3Page2] =
      ⟨[⟨⟨1, "t1", ["alpha beta gamma"], 3, 600, 800⟩, []⟩,
        ⟨⟨2, "", [], 0, 0, 0⟩, []⟩], "t1\n\n\n\n", [],
       ⟨2, 3, 0, 1⟩⟩ := by
  refine ⟨?_, ?_, ?_⟩
  · intro inputs
    refine ⟨by rw [parse_pages, List.length_map], ?_⟩
    have h := parse_foldl_total_pages inputs ⟨[], "", [], ⟨inputs.length, 0, 0, 0⟩⟩
    simpa [parse] using h
  · intro inputs i p hp ht hb
    rw [parse_pages, List.getElem?_map, hp]
    simp [pageOf, extract_text_from_page, extract_tables_from_page, ht, hb]
  · rfl

/-- Concrete instance of C3's failure policy: parsing the single raising
page yields the empty page record at index 0. -/
theorem failed_page_degrades_locally_witness :
    (parse [c3Page2]).pages[0]? = some ⟨⟨2, "", [], 0, 0, 0⟩, []⟩ :=
  failed_page_degrades_locally.2.1 [c3Page2] 0 c3Page2 rfl rfl rfl

theorem extract_tables_mem (p : PageInput) (tbl : Table)
    (htbl : tbl ∈ extract_tables_from_page p) :
    tbl.rows = tbl.data.length ∧ 1 ≤ tbl.data.length ∧
    tbl.columns = (tbl.data.headD []).length ∧
    ∃ i raw, tbl.table_number = i + 1 ∧ p.tablesRaw[i]? = some raw ∧
      raw ≠ [] ∧ tbl.data = raw.map (List.map cleanCell) := by
  by_cases hraise : p.tablesRaise
  · simp [extract_tables_from_page, hraise] at htbl
  · rw [extract_tables_from_page, if_neg hraise] at htbl
    rcases List.mem_filterMap.mp htbl with ⟨⟨i, raw⟩, hmem, hf⟩
    have hget : p.tablesRaw[i]? = some raw :=
      List.mk_mem_enum_iff_getElem?.mp hmem
    by_cases hraw : raw = []
    · simp [hraw] at hf
    · simp only [hraw, if_false, Option.some.injEq, if_neg hraw] at hf
      subst hf
      refine ⟨rfl, ?_, ?_, i, raw, rfl, hget, hraw, rfl⟩
      · simpa [List.length_map, Nat.one_le_iff_ne_zero, List.length_eq_zero] using hraw
      · cases hc : raw.map (List.map cleanCell) with
        | nil => simp [List.map_eq_nil_iff] at hc; exact absurd hc hraw
        | cons r rest => simp [hc]

/-- C10: every recorded table (per page and in the flattened collection)
has `rows = len(data) ≥ 1` and `columns = len(data[0])`; empty detected
tables are skipped silently while still consuming an index, so
`table_number` is the 1-based index among all detected tables of the page
(witnessed concretely by `c10Page`, whose only recorded table is numbered
2), and the flattened `all_tables` is exactly the concatenation of the
per-page table lists, keeping each table's per-page number. -/
theorem table_records_invariants :
    (∀ inputs : List PageInput,
      (parse inputs).all_tables = ((parse inputs).pages.map PageData.tables).flatten) ∧
    (∀ (p : PageInput) (tbl : Table), tbl ∈ extract_tables_from_page p →
      tbl.rows = tbl.data.length ∧ 1 ≤ tbl.data.length ∧
      tbl.columns = (tbl.data.headD []).length ∧
      ∃ i raw, tbl.table_number = i + 1 ∧ p.tablesRaw[i]? = some raw ∧
        raw ≠ [] ∧ tbl.data = raw.map (List.map cleanCell)) ∧
    (∀ (inputs : List PageInput) (tbl : Table), tbl ∈ (parse inputs).all_tables →
      tbl.rows = tbl.data.length ∧ 1 ≤ tbl.data.length ∧
      tbl.columns = (tbl.data.headD []).length) ∧
    extract_tables_from_page c10Page = [⟨2, [["x"]], 1, 1⟩] := by
  refine ⟨?_, extract_tables_mem, ?_, rfl⟩
  · intro inputs
    rw [parse_all_tables, parse_pages, List.map_map]
    rfl
  · intro inputs tbl h
    rw [parse_all_tables] at h
    rcases List.mem_flatten.mp h with ⟨l, hl, hmem⟩
    rcases List.mem_map.mp hl with ⟨p, _, rfl⟩
    obtain ⟨h1, h2, h3, _⟩ := extract_tables_mem p tbl hmem
    exact ⟨h1, h2, h3⟩

/-- Concrete instance of C10's table invariants: the table recorded for
`c10Page` is numbered 2 (index 1 among the detected tables, the empty
table at index 0 having been skipped). -/
theorem table_records_invariants_witness :
    (Table.mk 2 [["x"]] 1 1).rows = (Table.mk 2 [["x"]] 1 1).data.length ∧
    1 ≤ (Table.mk 2 [["x"]] 1 1).data.length ∧
    (Table.mk 2 [["x"]] 1 1).columns = ((Table.mk 2 [["x"]] 1 1).data.headD []).length ∧
    ∃ i raw, (Table.mk 2 [["x"]] 1 1).table_number = i + 1 ∧
      c10Page.tablesRaw[i]? = some raw ∧ raw ≠ [] ∧
      (Table.mk 2 [["x"]] 1 1).data = raw.map (List.map cleanCell) :=
  table_records_invariants.2.1 c10Page (Table.mk 2 [["x"]] 1 1) (by decide)

theorem char_eq_of_toNat_eq {c d : Char} (h : c.toNat = d.toNat) : c = d := by
  have hv : c.val = d.val := by
    apply UInt32.ext
    simpa [Char.toNat] using h
  exact Char.ext hv

theorem clean_text_table_flags (U : Uni) (cell : List Char) :
    clean_text U cell false true true true false false =
      normalize_whitespace (normalize_encoding U (remove_pdf_artifacts cell)) := by
  by_cases h : cell = []
  · subst h
    simp [clean_text, remove_pdf_artifacts, normalize_encoding, normalize_whitespace]
  · simp [clean_text, h]

/-- C5, corrected: `clean_table_data` applies exactly steps 1, 2 and 5
(artifact removal, encoding normalization, whitespace normalization) to
each cell — never broken-word repair and never special-character
filtering — and preserves the row/column shape of the table including
ragged rows: the output has the same number of rows and each row keeps its
number of cells. -/
theorem clean_table_data_steps_and_shape (U : Uni) (table : List (List (List Char))) :
    clean_table_data U table =
      table.map (fun row => row.map (fun cell =>
        normalize_whitespace (normalize_encoding U (remove_pdf_artifacts cell)))) ∧
    (clean_table_data U table).length = table.length ∧
    (clean_table_data U table).map List.length = table.map List.length := by
  refine ⟨?_, ?_, ?_⟩
  · unfold clean_table_data
    simp only [clean_text_table_flags]
  · simp [clean_table_data]
  · simp [clean_table_data, List.map_map, Function.comp_def]

/-- C5 counterexample: on the single-cell table `[["ab-\ncd"]]` the
source's cell cleaning (no broken-word repair) differs from the claimed
steps 1–3 and 5: the code yields `"ab- cd"` while the claimed pipeline
yields `"abcd"`. -/
theorem clean_table_data_claim_false :
    clean_table_data uniASCII [[c5Cell]] ≠
      clean_table_data_claimed uniASCII [[c5Cell]] := by decide

theorem head_prefix_eq {l₁ l₂ : List Char} (h : l₁ <+: l₂) (hne : l₁ ≠ []) :
    l₁.head? = l₂.head? := by
  obtain ⟨t, rfl⟩ := h
  cases l₁ with
  | nil => exact absurd rfl hne
  | cons a l => simp

theorem head?_dropWhile_not (p : Char → Bool) (l : List Char) :
    ∀ x, (l.dropWhile p).head? = some x → p x = false := by
  induction l with
  | nil => intro x h; simp at h
  | cons a l ih =>
      intro x h
      rw [List.dropWhile_cons] at h
      by_cases ha : p a = true
      · rw [if_pos ha] at h
        exact ih x h
      · rw [if_neg ha] at h
        simp only [List.head?_cons, Option.some.injEq] at h
        subst h
        simpa using ha

theorem stripChars_eq (cs : List Char) :
    stripChars cs = List.rdropWhile isPySpace (List.dropWhile isPySpace cs) := rfl

theorem mem_stripChars (cs : List Char) (c : Char) (h : c ∈ stripChars cs) :
    c ∈ cs := by
  rw [stripChars_eq] at h
  exact (List.dropWhile_suffix isPySpace).sublist.subset
    (( List.rdropWhile_prefix isPySpace _).sublist.subset h)

theorem chain'_stripChars (R : Char → Char → Prop) (cs : List Char)
    (h : List.Chain' R cs) : List.Chain' R (stripChars cs) := by
  rw [stripChars_eq]
  exact List.Chain'.prefix (h.suffix (List.dropWhile_suffix _))
    ( List.rdropWhile_prefix _ _)

theorem stripChars_idem (cs : List Char) :
    stripChars (stripChars cs) = stripChars cs := by
  rw [stripChars_eq (stripChars cs)]
  have hdrop : List.dropWhile isPySpace (stripChars cs) = stripChars cs := by
    cases hs : stripChars cs with
    | nil => simp
    | cons x xs =>
        have hpre : stripChars cs <+: List.dropWhile isPySpace cs := by
          rw [stripChars_eq]
          exact List.rdropWhile_prefix _ _
        have hh := head_prefix_eq hpre (by simp [hs])
        rw [hs] at hh
        have hx : isPySpace x = false :=
          head?_dropWhile_not isPySpace cs x hh.symm
        rw [List.dropWhile_cons, if_neg (by simp [hx])]
  rw [hdrop, stripChars_eq cs]
  exact List.rdropWhile_idempotent _ _

theorem mem_collapseSpacesAux :
    ∀ (b : Bool) (cs : List Char) (c : Char),
    c ∈ collapseSpacesAux b cs → c = ' ' ∨ (c ∈ cs ∧ isPySpace c = false) := by
  intro b cs
  induction cs generalizing b with
  | nil => intro c h; simp [collapseSpacesAux] at h
  | cons d cs ih =>
      intro c h
      by_cases hd : isPySpace d = true
      · cases b with
        | true =>
            rw [show collapseSpacesAux true (d :: cs) = collapseSpacesAux true cs by
              simp [collapseSpacesAux, hd]] at h
            rcases ih true c h with h1 | ⟨h2, h3⟩
            · exact Or.inl h1
            · exact Or.inr ⟨List.mem_cons_of_mem _ h2, h3⟩
        | false =>
            rw [show collapseSpacesAux false (d :: cs) = ' ' :: collapseSpacesAux true cs by
              simp [collapseSpacesAux, hd]] at h
            rcases List.mem_cons.mp h with h1 | h1
            · exact Or.inl h1
            · rcases ih true c h1 with h2 | ⟨h3, h4⟩
              · exact Or.inl h2
              · exact Or.inr ⟨List.mem_cons_of_mem _ h3, h4⟩
      · rw [show collapseSpacesAux b (d :: cs) = d :: collapseSpacesAux false cs by
          simp [collapseSpacesAux, hd]] at h
        rcases List.mem_cons.mp h with h1 | h1
        · subst h1
          exact Or.inr ⟨List.mem_cons_self _ _, by simpa using hd⟩
        · rcases ih false c h1 with h2 | ⟨h3, h4⟩
          · exact Or.inl h2
          · exact Or.inr ⟨List.mem_cons_of_mem _ h3, h4⟩

theorem head_collapseSpacesAux_true (cs : List Char) :
    ∀ c, (collapseSpacesAux true cs).head? = some c → isPySpace c = false := by
  induction cs with
  | nil => intro c h; simp [collapseSpacesAux] at h
  | cons d cs ih =>
      intro c h
      by_cases hd : isPySpace d = true
      · rw [show collapseSpacesAux true (d :: cs) = collapseSpacesAux true cs by
          simp [collapseSpacesAux, hd]] at h
        exact ih c h
      · rw [show collapseSpacesAux true (d :: cs) = d :: collapseSpacesAux false cs by
          simp [collapseSpacesAux, hd]] at h
        simp only [List.head?_cons, Option.some.injEq] at h
        subst h
        simpa using hd

theorem chain_collapseSpacesAux (b : Bool) (cs : List Char) :
    List.Chain' (fun a c => ¬(isPySpace a = true ∧ isPySpace c = true))
      (collapseSpacesAux b cs) := by
  induction cs generalizing b with
  | nil => simp [collapseSpacesAux]
  | cons d cs ih =>
      by_cases hd : isPySpace d = true
      · cases b with
        | true => simpa [collapseSpacesAux, hd] using ih true
        | false =>
            rw [show collapseSpacesAux false (d :: cs) = ' ' :: collapseSpacesAux true cs by
              simp [collapseSpacesAux, hd]]
            refine List.chain'_cons'.mpr ⟨?_, ih true⟩
            intro y hy hcon
            have := head_collapseSpacesAux_true cs y hy
            rw [hcon.2] at this
            exact absurd this (by simp)
      · rw [show collapseSpacesAux b (d :: cs) = d :: collapseSpacesAux false cs by
          simp [collapseSpacesAux, hd]]
        refine List.chain'_cons'.mpr ⟨?_, ih false⟩
        intro y _ hcon
        exact hd hcon.1

theorem collapseSpacesAux_id (cs : List Char)
    (hblank : ∀ c ∈ cs, isPySpace c = true → c = ' ')
    (hchain : List.Chain' (fun a c => ¬(isPySpace a = true ∧ isPySpace c = true)) cs) :
    collapseSpacesAux false cs = cs ∧
      ((∀ x, cs.head? = some x → isPySpace x = false) →
        collapseSpacesAux true cs = cs) := by
  induction cs with
  | nil => simp [collapseSpacesAux]
  | cons d cs ih =>
      have hblank' : ∀ c ∈ cs, isPySpace c = true → c = ' ' :=
        fun c hc => hblank c (List.mem_cons_of_mem _ hc)
      obtain ⟨hpair, hchain'⟩ := List.chain'_cons'.mp hchain
      obtain ⟨ihf, iht⟩ := ih hblank' hchain'
      by_cases hd : isPySpace d = true
      · have hd' : d = ' ' := hblank d (List.mem_cons_self _ _) hd
        constructor
        · rw [show collapseSpacesAux false (d :: cs) = ' ' :: collapseSpacesAux true cs by
            simp [collapseSpacesAux, hd]]
          have hhead : ∀ x, cs.head? = some x → isPySpace x = false := by
            intro x hx
            have hnand := hpair x hx
            by_contra hxx
            exact hnand ⟨hd, by simpa using hxx⟩
          rw [iht hhead, hd']
        · intro hx
          have h0 := hx d rfl
          rw [hd] at h0
          exact absurd h0 (by simp)
      · constructor
        · rw [show collapseSpacesAux false (d :: cs) = d :: collapseSpacesAux false cs by
            simp [collapseSpacesAux, hd]]
          rw [ihf]
        · intro _
          rw [show collapseSpacesAux true (d :: cs) = d :: collapseSpacesAux false cs by
            simp [collapseSpacesAux, hd]]
          rw [ihf]

theorem no_nl_collapseSpaces (cs : List Char) : '\n' ∉ collapseSpaces cs := by
  intro h
  rcases mem_collapseSpacesAux false cs _ h with h1 | ⟨_, h2⟩
  · exact absurd h1 (by decide)
  · exact absurd h2 (by decide)

theorem collapseNl_no_nl (cs : List Char) (h : '\n' ∉ cs) :
    collapseNl cs = cs := by
  unfold collapseNl
  induction cs with
  | nil => simp [collapseNlAux, nlRun]
  | cons c cs ih =>
      have hc : ¬(c = '\n') := fun he => h (he ▸ List.mem_cons_self _ _)
      rw [show collapseNlAux 0 (c :: cs) =
          nlRun 0 ++ (c :: collapseNlAux 0 cs) by simp [collapseNlAux, hc]]
      rw [ih (fun hm => h (List.mem_cons_of_mem _ hm))]
      simp [nlRun]

theorem splitNl_no_nl (cs : List Char) (h : '\n' ∉ cs) : splitNl cs = [cs] := by
  induction cs with
  | nil => rfl
  | cons c cs ih =>
      have hc : ¬(c = '\n') := fun he => h (he ▸ List.mem_cons_self _ _)
      rw [show splitNl (c :: cs) =
          (match splitNl cs with
           | [] => [[c]]
           | p :: ps => (c :: p) :: ps) by simp [splitNl, hc]]
      rw [ih (fun hm => h (List.mem_cons_of_mem _ hm))]

theorem normalize_whitespace_eq (cs : List Char) :
    normalize_whitespace cs = stripChars (collapseSpaces cs) := by
  by_cases h : cs = []
  · subst h
    simp [normalize_whitespace, collapseSpaces, collapseSpacesAux, stripChars]
  · rw [normalize_whitespace, if_neg h,
      collapseNl_no_nl _ (no_nl_collapseSpaces cs),
      splitNl_no_nl _ (no_nl_collapseSpaces cs)]
    simp only [List.map_cons, List.map_nil]
    rw [show List.intercalate ['\n'] [stripChars (collapseSpaces cs)] =
        stripChars (collapseSpaces cs) by
      simp [List.intercalate]]
    exact stripChars_idem _

theorem fixBrokenAux_no_nl (fuel : Nat) (cs : List Char) (h : '\n' ∉ cs) :
    fixBrokenAux fuel cs = cs := by
  induction fuel generalizing cs with
  | zero => rfl
  | succ fuel ih =>
      cases cs with
      | nil => rfl
      | cons c cs =>
          have hcs : '\n' ∉ cs := fun hm => h (List.mem_cons_of_mem _ hm)
          by_cases hc : c = '-'
          · have hnm : '\n' ∉ cs.takeWhile isPySpace := fun hmem =>
              hcs (( List.takeWhile_prefix isPySpace).sublist.subset hmem)
            rw [show fixBrokenAux (fuel + 1) (c :: cs) =
                c :: fixBrokenAux fuel cs by simp [fixBrokenAux, hc, hnm]]
            rw [ih cs hcs]
          · rw [show fixBrokenAux (fuel + 1) (c :: cs) =
                c :: fixBrokenAux fuel cs by simp [fixBrokenAux, hc]]
            rw [ih cs hcs]

theorem clean_text_default_unfold (U : Uni) (x : List Char) :
    clean_text_default U x =
      normalize_whitespace (remove_special_characters U
        (fix_broken_words (normalize_encoding U (remove_pdf_artifacts x)))) := by
  by_cases hx : x = []
  · subst hx
    simp [clean_text_default, clean_text, remove_pdf_artifacts, normalize_encoding,
      fix_broken_words, remove_special_characters, normalize_whitespace]
  · simp [clean_text_default, clean_text, hx]

/-- C4, corrected: `clean_text` with the default option set is idempotent
at every input on which the NFC step fixes the first pass's output (in
particular at every input whose cleaning juxtaposes no new canonically
composable sequence — e.g. all ASCII text).  The hypothesis on the null
character reflects that `\w` matches no control character. -/
theorem clean_text_default_idempotent_of_nfc_fixed (U : Uni) (x : List Char)
    (hctl : U.isWord (Char.ofNat 0) = false)
    (hnfc : U.nfc (clean_text_default U x) = clean_text_default U x) :
    clean_text_default U (clean_text_default U x) = clean_text_default U x := by
  set y := clean_text_default U x with hy
  have hyform : ∃ t4 : List Char, (∀ c ∈ t4, specialKeep U c = true) ∧
      y = stripChars (collapseSpaces t4) := by
    rw [hy, clean_text_default_unfold]
    set t3 := fix_broken_words (normalize_encoding U (remove_pdf_artifacts x)) with ht3
    by_cases h3 : t3 = []
    · refine ⟨[], by simp, ?_⟩
      rw [h3]
      simp [remove_special_characters, normalize_whitespace, collapseSpaces,
        collapseSpacesAux, stripChars]
    · refine ⟨t3.filter (specialKeep U), fun c hc => (List.mem_filter.mp hc).2, ?_⟩
      rw [remove_special_characters, if_neg h3, normalize_whitespace_eq]
  obtain ⟨t4, ht4, hyeq⟩ := hyform
  have hmem : ∀ c ∈ y, c = ' ' ∨ (specialKeep U c = true ∧ isPySpace c = false) := by
    intro c hc
    rw [hyeq] at hc
    have hc2 := mem_stripChars _ c hc
    rcases mem_collapseSpacesAux false t4 c hc2 with h1 | ⟨h2, h3⟩
    · exact Or.inl h1
    · exact Or.inr ⟨ht4 c h2, h3⟩
  have hblankY : ∀ c ∈ y, isPySpace c = true → c = ' ' := by
    intro c hc hsp
    rcases hmem c hc with h1 | ⟨_, h2⟩
    · exact h1
    · rw [hsp] at h2
      exact absurd h2 (by simp)
  have hchainY : List.Chain'
      (fun a c => ¬(isPySpace a = true ∧ isPySpace c = true)) y := by
    rw [hyeq]
    exact chain'_stripChars _ _ (chain_collapseSpacesAux false t4)
  have hnlY : '\n' ∉ y := by
    intro h
    rcases hmem _ h with h1 | ⟨_, h2⟩
    · exact absurd h1 (by decide)
    · exact absurd h2 (by decide)
  have hart : remove_pdf_artifacts y = y := by
    by_cases hy0 : y = []
    · simp [remove_pdf_artifacts, hy0]
    · rw [remove_pdf_artifacts, if_neg hy0]
      refine List.filter_eq_self.mpr ?_
      intro c hc
      rcases hmem c hc with h1 | ⟨h2, h3⟩
      · subst h1; decide
      · have h12 : c.toNat ≠ 12 := by
          intro he
          have : isPySpace c = true := by simp [isPySpace, he]
          rw [this] at h3
          exact absurd h3 (by simp)
        have h13 : c.toNat ≠ 13 := by
          intro he
          have : isPySpace c = true := by simp [isPySpace, he]
          rw [this] at h3
          exact absurd h3 (by simp)
        have h00 : c.toNat ≠ 0 := by
          intro he
          have hc0 : c = Char.ofNat 0 := char_eq_of_toNat_eq (by simpa using he)
          rw [hc0] at h2
          have : specialKeep U (Char.ofNat 0) = false := by
            simp [specialKeep, hctl, isPySpace, isCJK, pdfPunct]
          rw [this] at h2
          exact absurd h2 (by simp)
        simp [h12, h13, h00]
  have henc : normalize_encoding U y = y := by
    by_cases hy0 : y = []
    · simp [normalize_encoding, hy0]
    · rw [normalize_encoding, if_neg hy0]
      exact hnfc
  have hfix : fix_broken_words y = y := by
    by_cases hy0 : y = []
    · simp [fix_broken_words, hy0]
    · rw [fix_broken_words, if_neg hy0]
      exact fixBrokenAux_no_nl _ _ hnlY
  have hspec : remove_special_characters U y = y := by
    by_cases hy0 : y = []
    · simp [remove_special_characters, hy0]
    · rw [remove_special_characters, if_neg hy0]
      refine List.filter_eq_self.mpr ?_
      intro c hc
      rcases hmem c hc with h1 | ⟨h2, _⟩
      · subst h1
        have hsp : isPySpace ' ' = true := by decide
        simp [specialKeep, hsp]
      · exact h2
  have hnw : normalize_whitespace y = y := by
    rw [normalize_whitespace_eq]
    have hcoll : collapseSpaces y = y := (collapseSpacesAux_id y hblankY hchainY).1
    rw [show collapseSpaces y = y from hcoll, hyeq]
    exact stripChars_idem _
  rw [clean_text_default_unfold U y, hart, henc, hfix, hspec, hnw]

/-- Concrete instance of the corrected C4: with the identity NFC model the
hypotheses hold and cleaning `"a b"` twice equals cleaning it once. -/
theorem clean_text_default_idempotent_witness :
    clean_text_default uniASCII (clean_text_default uniASCII ['a', ' ', 'b']) =
      clean_text_default uniASCII ['a', ' ', 'b'] :=
  clean_text_default_idempotent_of_nfc_fixed uniASCII ['a', ' ', 'b']
    (by decide) rfl

/-- C4 counterexample: with the (faithful) Hangul fragment of NFC,
cleaning `"ᄀ-\nᅡ"` once yields the two jamo (the broken-word
step removed the hyphen and newline between them), and cleaning it a
second time composes them into the single syllable `U+AC00` — so
`clean(clean(x)) ≠ clean(x)`. -/
theorem clean_text_default_not_idempotent :
    clean_text_default uniHangul (clean_text_default uniHangul c4Input) ≠
      clean_text_default uniHangul c4Input := by decide

/-- C6 counterexample: `"aaaa\n\nbbbb"` with threshold 5 exceeds the
threshold and splits into two chunks, and the first chunk's summarize call
uses `"short"`, not the caller's requested `"medium"`. -/
theorem first_chunk_length_claim_false :
    5 < c6Text.length ∧
    1 < (splitChunks 5 c6Text).length ∧
    (chunkCallLengths 5 c6Text "medium").head? = some "short" ∧
    "short" ≠ ("medium" : String) := by decide

/-- C6, corrected: in chunked summarization, when the text splits into
more than one chunk, every chunk-summarize call — the first included —
uses the `short` length regardless of the caller's requested length; only
when exactly one chunk results does it use the caller's length. -/
theorem chunk_lengths_uniform (chunkSize : Nat) (text : List Char) (length : String) :
    (1 < (splitChunks chunkSize text).length →
      chunkCallLengths chunkSize text length =
        List.replicate (splitChunks chunkSize text).length "short") ∧
    ((splitChunks chunkSize text).length ≤ 1 →
      chunkCallLengths chunkSize text length =
        List.replicate (splitChunks chunkSize text).length length) := by
  constructor
  · intro h
    rw [chunkCallLengths, chunkLengthArg, if_pos h]
    exact List.map_const' _ _
  · intro h
    have h2 : ¬(1 < (splitChunks chunkSize text).length) := by omega
    rw [chunkCallLengths, chunkLengthArg, if_neg h2]
    exact List.map_const' _ _

/-- Concrete instance of the corrected C6: both chunks of the
counterexample text get the `short` length. -/
theorem chunk_lengths_uniform_witness :
    chunkCallLengths 5 c6Text "medium" =
      List.replicate (splitChunks 5 c6Text).length "short" :=
  (chunk_lengths_uniform 5 c6Text "medium").1 (by decide)

theorem foldl_set_length (f : Nat → List Char) :
    ∀ (order : List Nat) (init : List (List Char)),
    (order.foldl (fun arr idx => arr.set idx (f idx)) init).length = init.length := by
  intro order
  induction order with
  | nil => intro init; rfl
  | cons o rest ih =>
      intro init
      rw [List.foldl_cons, ih]
      exact List.length_set _ _ _

theorem foldl_set_getD (f : Nat → List Char) :
    ∀ (order : List Nat) (init : List (List Char)) (j : Nat), j < init.length →
    ((order.foldl (fun arr idx => arr.set idx (f idx)) init).getD j []) =
      if j ∈ order then f j else init.getD j [] := by
  intro order
  induction order with
  | nil => intro init j hj; simp
  | cons o rest ih =>
      intro init j hj
      rw [List.foldl_cons, ih (init.set o (f o)) j (by simpa using hj)]
      by_cases hmem : j ∈ rest
      · simp [hmem]
      · by_cases hjo : j = o
        · subst hjo
          simp [hmem, List.getD_eq_getElem?_getD, List.getElem?_set_eq_of_lt _ hj]
        · have hjo' : o ≠ j := fun he => hjo he.symm
          simp [hmem, hjo, List.getD_eq_getElem?_getD, List.getElem?_set_ne hjo']

theorem reassemble_eq_map (S : List Char → String → Except Unit (List Char))
    (lengthArg : String) (chunks : List (List Char)) (order : List Nat)
    (h : order.Perm (List.range chunks.length)) :
    reassembleChunks S lengthArg chunks order =
      (List.range chunks.length).map (chunkEntry S lengthArg chunks) := by
  have hlen : (reassembleChunks S lengthArg chunks order).length = chunks.length := by
    rw [reassembleChunks, foldl_set_length]
    exact List.length_replicate _ _
  apply List.ext_getElem (by simp [hlen])
  intro i h1 h2
  have hi : i < chunks.length := by rwa [hlen] at h1
  have hD := foldl_set_getD (chunkEntry S lengthArg chunks) order
    (List.replicate chunks.length []) i (by simpa using hi)
  have hmem : i ∈ order := h.mem_iff.mpr (List.mem_range.mpr hi)
  rw [if_pos hmem] at hD
  rw [← List.getD_eq_getElem (reassembleChunks S lengthArg chunks order) [] h1]
  rw [show reassembleChunks S lengthArg chunks order =
      order.foldl (fun arr idx => arr.set idx (chunkEntry S lengthArg chunks idx))
        (List.replicate chunks.length []) from rfl, hD]
  simp

/-- C7: the reassembled chunk summaries are keyed by original chunk index,
independent of the completion order (any permutation of the indices), so
the `'\n\n'`-joined concatenation is in original chunk order; and a chunk
whose worker raised contributes exactly the first 500 characters of its
own source text followed by `"..."`. -/
theorem chunk_reassembly_order_independent
    (S : List Char → String → Except Unit (List Char)) (lengthArg : String)
    (chunks : List (List Char)) (order : List Nat)
    (h : order.Perm (List.range chunks.length)) :
    reassembleChunks S lengthArg chunks order =
      (List.range chunks.length).map (chunkEntry S lengthArg chunks) ∧
    joinParas (reassembleChunks S lengthArg chunks order) =
      joinParas ((List.range chunks.length).map (chunkEntry S lengthArg chunks)) ∧
    ∀ idx : Nat, S (chunks.getD idx []) lengthArg = Except.error () →
      chunkEntry S lengthArg chunks idx =
        (chunks.getD idx []).take 500 ++ ['.', '.', '.'] := by
  refine ⟨reassemble_eq_map S lengthArg chunks order h,
    by rw [reassemble_eq_map S lengthArg chunks order h], ?_⟩
  intro idx he
  rw [chunkEntry, he]

/-- Concrete instance of C7: chunks `[A, B, C]` completed in order
`C, A, B` still reassemble in index order. -/
theorem chunk_reassembly_order_independent_witness :
    reassembleChunks (fun c _ => Except.ok (c ++ ['!'])) "short"
        [['A'], ['B'], ['C']] [2, 0, 1] =
      (List.range 3).map (chunkEntry (fun c _ => Except.ok (c ++ ['!'])) "short"
        [['A'], ['B'], ['C']]) :=
  (chunk_reassembly_order_independent (fun c _ => Except.ok (c ++ ['!'])) "short"
    [['A'], ['B'], ['C']] [2, 0, 1] (by decide)).1

theorem retryAux_all_timeout (outcomes : Nat → ReqOutcome) (m d : Nat)
    (h : ∀ i, i < m → outcomes i = .timeout) :
    ∀ (fuel attempt : Nat) (delays : List Nat), attempt + fuel + 1 = m →
    retryAux outcomes m d (fuel + 1) attempt delays =
      ⟨m, delays ++ (List.range' (attempt + 1) fuel).map (fun k => d * k),
       some (.error .timeoutErr)⟩ := by
  intro fuel
  induction fuel with
  | zero =>
      intro attempt delays hsum
      have hout : outcomes attempt = .timeout := h attempt (by omega)
      have hnot : ¬(attempt < m - 1) := by omega
      simp only [retryAux, hout, make_request, if_neg hnot]
      have hA : attempt + 1 = m := by omega
      simp [hA]
  | succ fuel ih =>
      intro attempt delays hsum
      have hout : outcomes attempt = .timeout := h attempt (by omega)
      have hlt : attempt < m - 1 := by omega
      rw [show retryAux outcomes m d (fuel + 1 + 1) attempt delays =
          retryAux outcomes m d (fuel + 1) (attempt + 1) (delays ++ [d * (attempt + 1)]) by
        simp only [retryAux, hout, make_request, if_pos hlt]]
      rw [ih (attempt + 1) (delays ++ [d * (attempt + 1)]) (by omega)]
      have hlist : (delays ++ [d * (attempt + 1)]) ++
          (List.range' (attempt + 1 + 1) fuel).map (fun k => d * k) =
          delays ++ (List.range' (attempt + 1) (fuel + 1)).map (fun k => d * k) := by
        rw [show List.range' (attempt + 1) (fuel + 1) =
            (attempt + 1) :: List.range' (attempt + 2) fuel from rfl]
        simp
      rw [hlist]

theorem retryAux_all_other (outcomes : Nat → ReqOutcome) (m d : Nat)
    (h : ∀ i, i < m → outcomes i = .otherFail) :
    ∀ (fuel attempt : Nat) (delays : List Nat), attempt + fuel + 1 = m →
    retryAux outcomes m d (fuel + 1) attempt delays =
      ⟨m, delays ++ (List.range' (attempt + 1) fuel).map (fun k => d * k * 2),
       some (.error .otherErr)⟩ := by
  intro fuel
  induction fuel with
  | zero =>
      intro attempt delays hsum
      have hout : outcomes attempt = .otherFail := h attempt (by omega)
      have hnot : ¬(attempt < m - 1) := by omega
      simp only [retryAux, hout, make_request, if_neg hnot]
      have hA : attempt + 1 = m := by omega
      simp [hA]
  | succ fuel ih =>
      intro attempt delays hsum
      have hout : outcomes attempt = .otherFail := h attempt (by omega)
      have hlt : attempt < m - 1 := by omega
      rw [show retryAux outcomes m d (fuel + 1 + 1) attempt delays =
          retryAux outcomes m d (fuel + 1) (attempt + 1)
            (delays ++ [d * (attempt + 1) * 2]) by
        simp only [retryAux, hout, make_request, if_pos hlt]]
      rw [ih (attempt + 1) (delays ++ [d * (attempt + 1) * 2]) (by omega)]
      have hlist : (delays ++ [d * (attempt + 1) * 2]) ++
          (List.range' (attempt + 1 + 1) fuel).map (fun k => d * k * 2) =
          delays ++ (List.range' (attempt + 1) (fuel + 1)).map (fun k => d * k * 2) := by
        rw [show List.range' (attempt + 1) (fuel + 1) =
            (attempt + 1) :: List.range' (attempt + 2) fuel from rfl]
        simp
      rw [hlist]

theorem chain'_le_mul_range' (d : Nat) :
    ∀ (n s : Nat), List.Chain' (· ≤ ·) ((List.range' s n).map (fun k => d * k)) := by
  intro n
  induction n with
  | zero => intro s; simp
  | succ n ih =>
      intro s
      cases n with
      | zero => simp
      | succ n2 =>
          rw [show List.range' s (n2 + 1 + 1) = s :: List.range' (s + 1) (n2 + 1) from rfl,
            List.map_cons]
          refine List.chain'_cons'.mpr ⟨?_, by simpa using ih (s + 1)⟩
          intro y hy
          rw [show List.range' (s + 1) (n2 + 1) = (s + 1) :: List.range' (s + 2) n2 from rfl,
            List.map_cons] at hy
          simp only [List.head?_cons, Option.mem_def, Option.some.injEq] at hy
          subst hy
          exact Nat.mul_le_mul_left d (by omega)

/-- C8: a first attempt failing with HTTP 429 or 401 is classified
terminal and never retried — exactly one attempt, no sleep, the error
raised at once; a run of timeouts is retried up to the configured maximum
with the linearly increasing (hence non-decreasing) delays
`RETRY_DELAY * attemptNumber`; a run of any other failures is retried
with those delays additionally doubled. -/
theorem retry_policy (outcomes : Nat → ReqOutcome) (m d : Nat) (hm : 1 ≤ m) :
    (outcomes 0 = .httpStatus 429 →
      retry_request outcomes m d =
        ⟨1, [], some (.error (.valueErr rateLimitMsg))⟩) ∧
    (outcomes 0 = .httpStatus 401 →
      retry_request outcomes m d =
        ⟨1, [], some (.error (.valueErr invalidKeyMsg))⟩) ∧
    ((∀ i, i < m → outcomes i = .timeout) →
      retry_request outcomes m d =
        ⟨m, (List.range' 1 (m - 1)).map (fun k => d * k),
         some (.error .timeoutErr)⟩ ∧
      List.Chain' (· ≤ ·) ((List.range' 1 (m - 1)).map (fun k => d * k))) ∧
    ((∀ i, i < m → outcomes i = .otherFail) →
      retry_request outcomes m d =
        ⟨m, (List.range' 1 (m - 1)).map (fun k => d * k * 2),
         some (.error .otherErr)⟩) := by
  obtain ⟨m1, rfl⟩ : ∃ m1, m = m1 + 1 := ⟨m - 1, by omega⟩
  refine ⟨?_, ?_, ?_, ?_⟩
  · intro h0
    have ht : isTerminalMsg rateLimitMsg = true := by decide
    rw [retry_request]
    simp [retryAux, h0, make_request, ht]
  · intro h0
    have ht : isTerminalMsg invalidKeyMsg = true := by decide
    rw [retry_request]
    simp [retryAux, h0, make_request, ht]
  · intro hall
    refine ⟨?_, chain'_le_mul_range' d (m1 + 1 - 1) 1⟩
    rw [retry_request, retryAux_all_timeout outcomes (m1 + 1) d hall m1 0 [] (by omega)]
    simp
  · intro hall
    rw [retry_request, retryAux_all_other outcomes (m1 + 1) d hall m1 0 [] (by omega)]
    simp

/-- Concrete instance of C8's timeout policy: three timeouts with base
delay 2 make three attempts with sleeps 2 and 4. -/
theorem retry_policy_witness :
    retry_request (fun _ => ReqOutcome.timeout) 3 2 =
      ⟨3, (List.range' 1 (3 - 1)).map (fun k => 2 * k),
       some (.error .timeoutErr)⟩ :=
  ((retry_policy (fun _ => ReqOutcome.timeout) 3 2 (by decide)).2.2.1
    (fun _ _ => rfl)).1

/-- C9, corrected: when `_retry_request` raises (in particular after every
retry attempt has failed), `summarize_text` catches the exception and
returns its input text unchanged — the caller observes the original text
rather than an error. -/
theorem summarize_text_swallows_errors (outcomes : Nat → ReqOutcome)
    (m d : Nat) (text : List Char) (length : String) (e : ApiError)
    (h : (retry_request outcomes m d).result = some (Except.error e)) :
    summarize_text outcomes m d text length = text := by
  rw [summarize_text]
  by_cases h0 : text = [] ∨ stripChars text = []
  · rw [if_pos h0]
  · rw [if_neg h0, h]

/-- C9 counterexample: with timeouts on every attempt, the retry layer
raises a terminal timeout error after 3 attempts, yet `summarize_text`
returns `"hello"` unchanged — no error reaches its caller. -/
theorem summarize_error_not_raised :
    (retry_request (fun _ => ReqOutcome.timeout) 3 2).result =
      some (Except.error ApiError.timeoutErr) ∧
    summarize_text (fun _ => ReqOutcome.timeout) 3 2 "hello".data "medium" =
      "hello".data := by
  exact ⟨by decide, by decide⟩

/-- Concrete instance of the corrected C9. -/
theorem summarize_text_swallows_errors_witness :
    summarize_text (fun _ => ReqOutcome.timeout) 3 2 ['h', 'i'] "short" = ['h', 'i'] :=
  summarize_text_swallows_errors (fun _ => ReqOutcome.timeout) 3 2 ['h', 'i'] "short"
    ApiError.timeoutErr (by decide)

end Pdf2Text
